/-
Verification of the inflectional-hierarchy pipeline
(triphone encoding, bipartite graph construction, community projection,
hierarchy-coefficient analysis) against its natural-language specification.

Strings are modelled as lists of characters so that the splitting and
suffixing operations of the source can be reasoned about exactly.
-/
import Mathlib

namespace InflHierarchy

/-- Triphone encoder, translated from `src/utils.py`, `generate_triphones`:
pad the input with one boundary marker on each side; if the padded string has
length at most 3 return it whole, otherwise return every contiguous
3-character window in left-to-right order. -/
def generate_triphones (s : List Char) : List (List Char) :=
  let newstring : List Char := '#' :: s ++ ['#']
  if newstring.length ≤ 3 then [newstring]
  else (List.range (newstring.length - 2)).map (fun i => (newstring.drop i).take 3)

/-- From `src/src/hierarchy_analyser.py`, `find_set_containing_string`: return
the first set of the list containing the element, if any. The identical helper
also appears in the standalone script `src/get_communities.py`. -/
def find_set_containing_string (list_of_sets : List (List String)) (x : String) :
    Option (List String) :=
  match list_of_sets with
  | [] => none
  | s :: rest => if x ∈ s then some s else find_set_containing_string rest x

/-- The pair enumeration `itertools.combinations(community, 2)`: all pairs
(community[i], community[j]) with i < j, in lexicographic index order. -/
def pairsOf : List String → List (String × String)
  | [] => []
  | x :: xs => xs.map (fun y => (x, y)) ++ pairsOf xs

/-- One iteration of the pair loop in `calculate_hierarchy_coefficient`
(`src/src/hierarchy_analyser.py` lines 60-63): look up the first coarser set
containing the first element; the pair counts as a hit when that set is truthy
(non-empty) and also contains the second element; a missing set counts as a
miss, not a failure. -/
def sameSetHit (lower_communities : List (List String)) (pr : String × String) : Bool :=
  match find_set_containing_string lower_communities pr.1 with
  | none => false
  | some s => !s.isEmpty && decide (pr.2 ∈ s)

/-- The per-community score of `calculate_hierarchy_coefficient`: hits divided
by the number of pairs. -/
def communityScore (lower_communities : List (List String)) (community : List String) : ℚ :=
  (((pairsOf community).countP (sameSetHit lower_communities) : ℚ)) /
    (((pairsOf community).length : ℚ))

/-- The community loop of `calculate_hierarchy_coefficient` (lines 55-66):
append a score for every community of the finer partition with more than one
member, in iteration order. -/
def scoreLoop (lower_communities : List (List String)) : List (List String) → List ℚ
  | [] => []
  | c :: rest =>
      if 1 < c.length then communityScore lower_communities c :: scoreLoop lower_communities rest
      else scoreLoop lower_communities rest

/-- `calculate_hierarchy_coefficient` from `src/src/hierarchy_analyser.py`
lines 35-68: the sentinel string when every community of the finer
(upper-resolution) partition is a singleton, otherwise the list of
per-community scores. -/
def calculate_hierarchy_coefficient (lower_communities upper_communities : List (List String)) :
    Sum String (List ℚ) :=
  if upper_communities.all (fun s => s.length == 1) then
    Sum.inl "Every lexeme in its own community"
  else
    Sum.inr (scoreLoop lower_communities upper_communities)

/-- The pair loop of the standalone script `src/get_communities.py` lines
69-72: there the found set is used directly by `v2 in s`, so a lexeme missing
from every coarser set raises a TypeError, modelled as an error. -/
def gc_countSame (upper_comms : List (List String)) :
    List (String × String) → Except Unit Nat
  | [] => Except.ok 0
  | pr :: rest =>
      match find_set_containing_string upper_comms pr.1 with
      | none => Except.error ()
      | some s =>
          match gc_countSame upper_comms rest with
          | Except.error e => Except.error e
          | Except.ok n => Except.ok ((if pr.2 ∈ s then 1 else 0) + n)

/-- The community loop of the standalone script (lines 64-74): a community is
scored when it is truthy and its length is not 1. -/
def gc_scores (upper_comms : List (List String)) :
    List (List String) → Except Unit (List ℚ)
  | [] => Except.ok []
  | c :: rest =>
      if c.isEmpty || c.length == 1 then gc_scores upper_comms rest
      else
        match gc_countSame upper_comms (pairsOf c) with
        | Except.error e => Except.error e
        | Except.ok n =>
            match gc_scores upper_comms rest with
            | Except.error e => Except.error e
            | Except.ok rest' => Except.ok (((n : ℚ) / ((pairsOf c).length : ℚ)) :: rest')

/-- One resolution pair of the standalone script (lines 56-75). Following the
source's variable roles, `lower_comms` is the partition at the larger
resolution value (the finer one, checked for the all-singleton sentinel and
iterated), `upper_comms` the partition at the smaller value (searched for
co-membership). -/
def gc_pair (upper_comms lower_comms : List (List String)) :
    Except Unit (Sum String (List ℚ)) :=
  if lower_comms.all (fun s => s.length == 1) then
    Except.ok (Sum.inl "Every lexeme in its own community")
  else
    match gc_scores upper_comms lower_comms with
    | Except.error e => Except.error e
    | Except.ok l => Except.ok (Sum.inr l)

/-- The adjacent resolution pairs `[(res[i], res[i+1]) for i in ...]`. -/
def adjacentPairs {α : Type} (l : List α) : List (α × α) := l.zip l.tail

/-- The aggregation in `create_hierarchy_dataframe` (line 119-122): a sentinel
string passes through unchanged, a non-empty score list is averaged, an empty
one becomes 0. -/
def averageOf : Sum String (List ℚ) → Sum String ℚ
  | Sum.inl s => Sum.inl s
  | Sum.inr vs => Sum.inr (if vs.isEmpty then 0 else vs.sum / (vs.length : ℚ))

/-- `analyze_hierarchy` from `src/src/hierarchy_analyser.py` lines 70-101:
for each adjacent resolution pair, record the coefficient under the key
lower followed by an underscore followed by upper. Resolution labels are kept
as rendered character lists. -/
def analyze_hierarchy (comms : List Char → List (List String)) (resolutions : List (List Char)) :
    List (List Char × Sum String (List ℚ)) :=
  (adjacentPairs resolutions).map
    (fun p => (p.1 ++ '_' :: p.2, calculate_hierarchy_coefficient (comms p.1) (comms p.2)))

/-- `create_hierarchy_dataframe` from `src/src/hierarchy_analyser.py` lines
103-134: one row per rating entry, columns Keys, Averages, then the community
counts at `resolutions[:-1]` (column ncomms_upper) and at `resolutions[1:]`
(column ncomms_lower). -/
def create_hierarchy_dataframe (ratings : List (List Char × Sum String (List ℚ)))
    (comms : List Char → List (List String)) (resolutions : List (List Char)) :
    List (List Char × Sum String ℚ × Nat × Nat) :=
  let avgs := ratings.map (fun p => (p.1, averageOf p.2))
  let ncomms_upper := resolutions.dropLast.map (fun r => (comms r).length)
  let ncomms_lower := resolutions.tail.map (fun r => (comms r).length)
  (avgs.zip (ncomms_upper.zip ncomms_lower)).map (fun q => (q.1.1, q.1.2, q.2.1, q.2.2))

/-- The composition of `analyze_hierarchy` and `create_hierarchy_dataframe`,
as run by `run_hierarchy_analysis`. -/
def hierarchyRows (comms : List Char → List (List String)) (resolutions : List (List Char)) :
    List (List Char × Sum String ℚ × Nat × Nat) :=
  create_hierarchy_dataframe (analyze_hierarchy comms resolutions) comms resolutions

/-- Python `str.split(sep)` with a one-character separator: split at every
occurrence, keeping empty segments; the empty string yields one empty
segment. -/
def pySplit (sep : Char) : List Char → List (List Char)
  | [] => [[]]
  | c :: cs =>
      if c = sep then [] :: pySplit sep cs
      else
        match pySplit sep cs with
        | [] => [[c]]
        | p :: ps => (c :: p) :: ps

/-- A concrete community mapping used for evaluating the hierarchy report:
one three-member community at resolution 0, two communities at resolution
1. -/
def c9comms : List Char → List (List String) :=
  fun r => if r = ['0'] then [["a", "b", "c"]] else [["a", "b"], ["c"]]

/-- The lexeme projection step of `detect_communities_multiresolution`
(`src/src/community_detector.py` line 49): intersect every clustered set with
the lexeme-node set and keep the non-empty (truthy) intersections, preserving
order. -/
def lexemeProjection (partition : List (Finset String)) (lexemes : Finset String) :
    List (Finset String) :=
  (partition.filter (fun s => decide (s ∩ lexemes ≠ ∅))).map (fun s => s ∩ lexemes)

/-- Decimal rendering of a natural number, one digit per character, written
with explicit structural fuel so that it evaluates by kernel reduction; it
agrees with the reversed base-10 digit expansion (proved below). -/
def natCharsAux : Nat → Nat → List Char
  | 0, _ => []
  | fuel + 1, n =>
      if n = 0 then [] else natCharsAux fuel (n / 10) ++ [Nat.digitChar (n % 10)]

/-- Python `str(n)` for a natural number. -/
def natChars (n : Nat) : List Char :=
  if n = 0 then ['0'] else natCharsAux n n

/-- `index_duplicate_exponents` inner loop (`src/src/graph_builder.py` lines
90-99): a running `seen` counter per string; the k-th occurrence of a string
keeps the bare string when k = 1 and receives the suffix underscore (k-1)
otherwise. The counter state is carried as the list of already-processed
entries. -/
def indexLoop (prev : List (List Char)) : List (List Char) → List (List Char)
  | [] => []
  | exp :: rest =>
      (if 1 < prev.count exp + 1 then exp ++ '_' :: natChars (prev.count exp + 1 - 1)
       else exp) :: indexLoop (prev ++ [exp]) rest

/-- `index_duplicate_exponents` for one lexeme
(`src/src/graph_builder.py` lines 78-101). -/
def index_duplicate_exponents (exps_list : List (List Char)) : List (List Char) :=
  indexLoop [] exps_list

/-- Removal of one trailing ordinal suffix: if the string ends with an
underscore followed by a non-empty run of digits, drop that tail, otherwise
return the string unchanged. This is the stripping the specification speaks
about when relating disambiguated tags back to original tags. -/
def stripOrdinal (s : List Char) : List Char :=
  if s.reverse.takeWhile (fun c => c.isDigit) ≠ [] ∧
      (s.reverse.dropWhile (fun c => c.isDigit)).headD ' ' = '_' then
    (s.reverse.dropWhile (fun c => c.isDigit)).tail.reverse
  else s

/-- `process_cell` from `src/utils.py` lines 82-87: tag every triphone with
the originating column name after a dash separator. -/
def process_cell (cell : List (List Char)) (column_name : List Char) : List (List Char) :=
  cell.map (fun exponent => exponent ++ '-' :: column_name)

/-- The reserved lower-case stem column label. -/
def stemLower : List Char := ['s', 't', 'e', 'm']

/-- The reserved upper-case stem column label. -/
def stemUpper : List Char := ['S', 'T', 'E', 'M']

/-- One table row: the cells of one lexeme, as pairs of column label and
either a list of exponent strings or the not-applicable marker (None models
the NaN cell of the data frame). All rows of a table share the same column
labels, as in a data frame. -/
abbrev TableRow := List (List Char × Option (List (List Char)))

/-- The formatives table: one entry per lexeme identifier. -/
abbrev FormTable := List (String × TableRow)

/-- The drop of the reserved stem columns performed both in
`build_lexeme_dict` (line 29) and `calculate_edge_weights` (line 116). -/
def dropStem (row : TableRow) : TableRow :=
  row.filter (fun p => decide (p.1 ≠ stemLower ∧ p.1 ≠ stemUpper))

/-- The tagged triphones of one cell of a row: a not-applicable cell
contributes nothing, a list cell expands every exponent into its triphones
tagged with the column label. -/
def cellTags (p : List Char × Option (List (List Char))) : List (List Char) :=
  match p.2 with
  | none => []
  | some exps => process_cell (exps.flatMap generate_triphones) p.1

/-- The tagged triphones of one lexeme row, from `build_lexeme_dict`
(`src/src/graph_builder.py` lines 40-64): per column in order, skip
not-applicable cells, expand every exponent into its triphones and tag them
with the column label. -/
def rowTags (row : TableRow) : List (List Char) :=
  (dropStem row).flatMap cellTags

/-- `build_lexeme_dict` over the whole table. -/
def build_lexeme_dict (t : FormTable) : List (String × List (List Char)) :=
  t.map (fun r => (r.1, rowTags r.2))

/-- `index_duplicate_exponents` applied to every lexeme of the dictionary. -/
def index_duplicate_exponents_dict (d : List (String × List (List Char))) :
    List (String × List (List Char)) :=
  d.map (fun p => (p.1, index_duplicate_exponents p.2))

/-- A Python float as it occurs in the weight computation: a finite rational,
infinity, or the missing-value marker NaN. -/
inductive PyFloat
  | fin (q : ℚ)
  | inf
  | nan
deriving DecidableEq

/-- First matching cell value of a row, as a dictionary lookup. -/
def rowValue (row : TableRow) (cell : List Char) : Option (Option (List (List Char))) :=
  (row.find? (fun p => decide (p.1 = cell))).map (fun p => p.2)

/-- Whether a column label carries a list value in at least one row; only such
columns survive the pivot of `calculate_edge_weights` (the pivot drops
all-NaN columns). -/
def isListCol (t : FormTable) (cell : List Char) : Bool :=
  t.any (fun r => (dropStem r.2).any (fun p => decide (p.1 = cell) && p.2.isSome))

/-- The lookup `weights_dict[lexeme][cell]` followed by `1 / count`
(`src/src/graph_builder.py` lines 120-144), with the pandas pivot modelled
faithfully: a lexeme with no list-valued cell and a column with no list value
anywhere are dropped from the pivot, so those lookups raise KeyError (an
error naming the lexeme and the cell); a cell that is a valid column but
not-applicable for this lexeme pivots to NaN and `1 / nan` silently evaluates
to NaN; a zero-length list pivots to 0.0 and `1 / 0.0` raises
ZeroDivisionError, caught, logged with the edge and cell and re-raised. -/
def weightLookup (t : FormTable) (lex : String) (cell : List Char) :
    Except (String × List Char) PyFloat :=
  ((t.find? (fun r => decide (r.1 = lex))).map (fun r =>
    if (dropStem r.2).all (fun p => p.2.isNone) then Except.error (lex, cell)
    else if isListCol t cell then
      ((rowValue (dropStem r.2) cell).join).elim (Except.ok PyFloat.nan)
        (fun exps =>
          if exps.length = 0 then Except.error (lex, cell)
          else Except.ok (PyFloat.fin (1 / (exps.length : ℚ))))
    else Except.error (lex, cell))).getD (Except.error (lex, cell))

/-- Cell recovery inside the edge loop (`src/src/graph_builder.py` lines
139-141): `lst[1].split("-")[1]`, then strip everything from the first
underscore when one is present. A tag with no dash raises IndexError,
modelled as None. -/
def edgeCell (exp : List Char) : Option (List Char) :=
  ((pySplit '-' exp).get? 1).map (fun c0 =>
    if ('_' : Char) ∈ c0 then (pySplit '_' c0).headD [] else c0)

/-- One iteration of the weight loop: recover the cell, look the weight up. -/
def edgeWeight (t : FormTable) (lex : String) (exp : List Char) :
    Except (String × List Char) PyFloat :=
  (edgeCell exp).elim (Except.error (lex, exp)) (fun cell => weightLookup t lex cell)

/-- `dict_to_tuple_list` (`src/src/graph_builder.py` lines 128-132). -/
def dictToEdges (d : List (String × List (List Char))) : List (String × List Char) :=
  d.flatMap (fun p => p.2.map (fun e => (p.1, e)))

/-- The exception-propagating loop shape: process items left to right and
abort at the first raised error. -/
def mapE {α β ε : Type} (f : α → Except ε β) : List α → Except ε (List β)
  | [] => Except.ok []
  | a :: l =>
      match f a with
      | Except.error e => Except.error e
      | Except.ok b =>
          match mapE f l with
          | Except.error e => Except.error e
          | Except.ok bs => Except.ok (b :: bs)

/-- `calculate_edge_weights` (`src/src/graph_builder.py` lines 103-152):
attach a weight to every edge of the indexed dictionary, aborting at the
first lookup failure. -/
def calculate_edge_weights (t : FormTable) (indexed : List (String × List (List Char))) :
    Except (String × List Char) (List (String × List Char × PyFloat)) :=
  mapE (fun pe => Except.map (fun w => (pe.1, pe.2, w)) (edgeWeight t pe.1 pe.2))
    (dictToEdges indexed)

/-- The edge-construction pipeline of `create_bipartite_graph`: lexeme
dictionary, duplicate indexing, then edge weights. -/
def buildEdges (t : FormTable) :
    Except (String × List Char) (List (String × List Char × PyFloat)) :=
  calculate_edge_weights t (index_duplicate_exponents_dict (build_lexeme_dict t))

/-- The per-lexeme, per-cell exponent count of the original table, the
quantity the specification divides by. -/
def originCount (t : FormTable) (lex : String) (cell : List Char) : Option Nat :=
  ((t.find? (fun r => decide (r.1 = lex))).map (fun r =>
    ((rowValue (dropStem r.2) cell).join).map (fun exps => exps.length))).join

/-- A table whose single lexeme repeats the same exponent twice in one cell:
two entries in the list but only one distinct exponent. -/
def tblDup : FormTable := [("L", [(['C'], some [['a'], ['a']])])]

/-- A table where lexeme L2 has a not-applicable value in column C (a valid
column thanks to L1) while its column C underscore 1 produces an edge whose
recovered cell is C: the weight lookup meets the NaN pivot entry. -/
def tblNaN : FormTable :=
  [("L1", [(['C'], some [['a']]), (['C', '_', '1'], none)]),
   ("L2", [(['C'], none), (['C', '_', '1'], some [['b']])])]

/-- A concrete clustered set used to evaluate the projection. -/
def pA : Finset String := {"a"}

/-- A second concrete clustered set, disjoint from the first. -/
def pB : Finset String := {"b"}

/-- A concrete lexeme-node set. -/
def lexAB : Finset String := {"a", "b"}

lemma generate_triphones_of_le (s : List Char) (h : ('#' :: s ++ ['#']).length ≤ 3) :
    generate_triphones s = ['#' :: s ++ ['#']] := by
  unfold generate_triphones
  simp only [h, if_true]

lemma generate_triphones_of_gt (s : List Char) (h : ¬ ('#' :: s ++ ['#']).length ≤ 3) :
    generate_triphones s =
      (List.range (('#' :: s ++ ['#']).length - 2)).map
        (fun i => (('#' :: s ++ ['#']).drop i).take 3) := by
  unfold generate_triphones
  simp only [h, if_false]

lemma generate_triphones_length (s : List Char) :
    (generate_triphones s).length =
      (if ('#' :: s ++ ['#']).length ≤ 3 then 1 else ('#' :: s ++ ['#']).length - 2) := by
  by_cases h : ('#' :: s ++ ['#']).length ≤ 3
  · rw [generate_triphones_of_le s h, if_pos h]
    rfl
  · rw [generate_triphones_of_gt s h, if_neg h]
    rw [List.length_map, List.length_range]

/-- C3: the triphone encoder is total, pads with one boundary marker on each
side, returns the single whole padded string when the padded length is at most
3 (in particular the empty string yields the two-marker string), and otherwise
returns all padded-length minus 2 contiguous length-3 windows in left-to-right
order. -/
theorem generate_triphones_window_spec (s : List Char) :
    generate_triphones s ≠ [] ∧
    generate_triphones ([] : List Char) = [['#', '#']] ∧
    (generate_triphones s).length =
      (if ('#' :: s ++ ['#']).length ≤ 3 then 1 else ('#' :: s ++ ['#']).length - 2) ∧
    generate_triphones s =
      (if ('#' :: s ++ ['#']).length ≤ 3 then ['#' :: s ++ ['#']]
       else (List.range (('#' :: s ++ ['#']).length - 2)).map
         (fun i => (('#' :: s ++ ['#']).drop i).take 3)) ∧
    (∀ t ∈ generate_triphones s, t.length = min (('#' :: s ++ ['#']).length) 3) := by
  have hlen0 : 2 ≤ ('#' :: s ++ ['#']).length := by simp
  refine ⟨?_, ?_, generate_triphones_length s, ?_, ?_⟩
  · intro hcontra
    have hl := generate_triphones_length s
    rw [hcontra] at hl
    simp only [List.length_nil] at hl
    by_cases h : ('#' :: s ++ ['#']).length ≤ 3
    · rw [if_pos h] at hl
      omega
    · rw [if_neg h] at hl
      omega
  · rw [generate_triphones_of_le [] (by simp)]
    rfl
  · by_cases h : ('#' :: s ++ ['#']).length ≤ 3
    · rw [generate_triphones_of_le s h, if_pos h]
    · rw [generate_triphones_of_gt s h, if_neg h]
  · intro t ht
    by_cases h : ('#' :: s ++ ['#']).length ≤ 3
    · rw [generate_triphones_of_le s h] at ht
      simp only [List.mem_singleton] at ht
      subst ht
      omega
    · rw [generate_triphones_of_gt s h] at ht
      simp only [List.mem_map, List.mem_range] at ht
      obtain ⟨i, hi, rfl⟩ := ht
      have htake : ((('#' :: s ++ ['#']).drop i).take 3).length =
          min 3 (('#' :: s ++ ['#']).length - i) := by
        simp
      omega

lemma all_singleton_cond (upper : List (List String)) :
    upper.all (fun s => s.length == 1) = true ↔ ∀ s ∈ upper, s.length = 1 := by
  simp only [List.all_eq_true, beq_iff_eq]

lemma find_set_mem (los : List (List String)) (x : String) (s : List String)
    (h : find_set_containing_string los x = some s) : x ∈ s := by
  induction los with
  | nil => simp [find_set_containing_string] at h
  | cons t rest ih =>
      rw [find_set_containing_string] at h
      by_cases hx : x ∈ t
      · rw [if_pos hx] at h
        cases h
        exact hx
      · rw [if_neg hx] at h
        exact ih h

lemma pairsOf_length (l : List String) : (pairsOf l).length = l.length.choose 2 := by
  induction l with
  | nil => simp [pairsOf]
  | cons x xs ih =>
      rw [pairsOf, List.length_append, List.length_map, ih, List.length_cons,
        Nat.choose_succ_succ xs.length 1, Nat.choose_one_right]

lemma pairsOf_mem (l : List String) (pr : String × String) (h : pr ∈ pairsOf l) :
    pr.1 ∈ l ∧ pr.2 ∈ l := by
  induction l with
  | nil => simp [pairsOf] at h
  | cons x xs ih =>
      rw [pairsOf, List.mem_append] at h
      rcases h with h | h
      · simp only [List.mem_map] at h
        obtain ⟨y, hy, rfl⟩ := h
        exact ⟨List.mem_cons_self x xs, List.mem_cons_of_mem x hy⟩
      · obtain ⟨h1, h2⟩ := ih h
        exact ⟨List.mem_cons_of_mem x h1, List.mem_cons_of_mem x h2⟩

lemma scoreLoop_eq_filter_map (lower upper : List (List String)) :
    scoreLoop lower upper =
      (upper.filter (fun c => decide (1 < c.length))).map (communityScore lower) := by
  induction upper with
  | nil => simp [scoreLoop]
  | cons c rest ih =>
      rw [scoreLoop]
      by_cases h : 1 < c.length
      · rw [if_pos h, List.filter_cons_of_pos (by simpa using h), List.map_cons, ih]
      · rw [if_neg h, List.filter_cons_of_neg (by simpa using h), ih]

lemma communityScore_bounds (lower : List (List String)) (c : List String)
    (h : 1 < c.length) : 0 ≤ communityScore lower c ∧ communityScore lower c ≤ 1 := by
  unfold communityScore
  have hpos : 0 < (pairsOf c).length := by
    rw [pairsOf_length]
    exact Nat.choose_pos h
  have hle : (pairsOf c).countP (sameSetHit lower) ≤ (pairsOf c).length :=
    List.countP_le_length _
  constructor
  · apply div_nonneg <;> positivity
  · rw [div_le_one (by exact_mod_cast hpos)]
    exact_mod_cast hle

/-- C6: the hierarchy computation returns the all-singletons sentinel string,
and not a numeric list, exactly when every community of the finer
(upper-resolution) partition has exactly one member; otherwise it returns the
numeric score list. -/
theorem singleton_sentinel_iff (lower upper : List (List String)) :
    (calculate_hierarchy_coefficient lower upper = Sum.inl "Every lexeme in its own community"
      ↔ ∀ s ∈ upper, s.length = 1) ∧
    (¬ (∀ s ∈ upper, s.length = 1) →
      calculate_hierarchy_coefficient lower upper = Sum.inr (scoreLoop lower upper)) := by
  unfold calculate_hierarchy_coefficient
  by_cases h : ∀ s ∈ upper, s.length = 1
  · rw [if_pos ((all_singleton_cond upper).2 h)]
    exact ⟨⟨fun _ => h, fun _ => rfl⟩, fun hc => absurd h hc⟩
  · rw [if_neg (fun hc => h ((all_singleton_cond upper).1 hc))]
    exact ⟨⟨fun hc => absurd hc (by simp), fun hc => absurd hc h⟩, fun _ => rfl⟩

/-- C6 witness: at a concrete non-singleton partition the hypothesis of the
second conjunct is discharged and the score list is produced. -/
theorem singleton_sentinel_iff_witness :
    calculate_hierarchy_coefficient ([] : List (List String)) [["a", "b"]] =
      Sum.inr (scoreLoop ([] : List (List String)) [["a", "b"]]) :=
  (singleton_sentinel_iff ([] : List (List String)) [["a", "b"]]).2 (by decide)

/-- C1: for a finer partition that is not all-singleton the computation
returns one score per community with more than one lexeme, in order; each
score is the number of pairs whose first containing coarser set also contains
the second member, divided by the total number of unordered pairs of distinct
lexemes (under the set discipline of no duplicate members, the pair list has
exactly length-choose-2 entries); a lexeme found in no coarser set counts as
not co-located rather than failing; and every score lies in the closed
interval from 0 to 1. -/
theorem hierarchy_scores_spec (lower upper : List (List String))
    (hns : ¬ ∀ s ∈ upper, s.length = 1)
    (hnd : ∀ c ∈ upper, c.Nodup) :
    calculate_hierarchy_coefficient lower upper =
      Sum.inr ((upper.filter (fun c => decide (1 < c.length))).map (communityScore lower)) ∧
    (∀ c ∈ upper, 1 < c.length →
        communityScore lower c =
          (((pairsOf c).countP (sameSetHit lower) : ℚ)) / (((pairsOf c).length : ℚ)) ∧
        (pairsOf c).length = c.length.choose 2) ∧
    (∀ v w, find_set_containing_string lower v = none → sameSetHit lower (v, w) = false) ∧
    (∀ q ∈ scoreLoop lower upper, 0 ≤ q ∧ q ≤ 1) := by
  refine ⟨?_, ?_, ?_, ?_⟩
  · rw [(singleton_sentinel_iff lower upper).2 hns, scoreLoop_eq_filter_map]
  · intro c _ hc
    exact ⟨rfl, pairsOf_length c⟩
  · intro v w hnone
    unfold sameSetHit
    rw [hnone]
  · intro q hq
    rw [scoreLoop_eq_filter_map, List.mem_map] at hq
    obtain ⟨c, hc, rfl⟩ := hq
    rw [List.mem_filter] at hc
    exact communityScore_bounds lower c (by simpa using hc.2)

/-- C1 witness: a concrete two-member community scored against a coarser
partition containing both members. -/
theorem hierarchy_scores_spec_witness :
    calculate_hierarchy_coefficient [["a", "b"]] [["a", "b"]] =
      Sum.inr ((([["a", "b"]] : List (List String)).filter
        (fun c => decide (1 < c.length))).map (communityScore [["a", "b"]])) :=
  (hierarchy_scores_spec [["a", "b"]] [["a", "b"]] (by decide) (by decide)).1

lemma gc_countSame_eq (coarser : List (List String)) (prs : List (String × String))
    (hcov : ∀ pr ∈ prs, (find_set_containing_string coarser pr.1).isSome) :
    gc_countSame coarser prs = Except.ok (prs.countP (sameSetHit coarser)) := by
  induction prs with
  | nil => simp [gc_countSame]
  | cons pr rest ih =>
      have hpr := hcov pr (List.mem_cons_self pr rest)
      obtain ⟨s, hs⟩ := Option.isSome_iff_exists.1 hpr
      have hmem : pr.1 ∈ s := find_set_mem coarser pr.1 s hs
      have hne : s.isEmpty = false := by
        cases s with
        | nil => simp at hmem
        | cons a t => rfl
      have hhit : sameSetHit coarser pr = decide (pr.2 ∈ s) := by
        unfold sameSetHit
        rw [hs]
        simp [hne]
      rw [gc_countSame, hs, ih (fun x hx => hcov x (List.mem_cons_of_mem pr hx)),
        List.countP_cons, hhit]
      by_cases hm : pr.2 ∈ s
      · simp [hm, Nat.add_comm]
      · simp [hm]

lemma gc_scores_eq (coarser finer : List (List String))
    (hcov : ∀ c ∈ finer, ∀ v ∈ c, (find_set_containing_string coarser v).isSome) :
    gc_scores coarser finer = Except.ok (scoreLoop coarser finer) := by
  induction finer with
  | nil => simp [gc_scores, scoreLoop]
  | cons c rest ih =>
      have ihr := ih (fun x hx v hv => hcov x (List.mem_cons_of_mem c hx) v hv)
      rw [gc_scores, scoreLoop]
      by_cases h : 1 < c.length
      · have hskip : (c.isEmpty || c.length == 1) = false := by
          cases c with
          | nil => simp at h
          | cons a t =>
              simp only [List.isEmpty_cons, Bool.false_or]
              simpa using Nat.ne_of_gt h
        rw [hskip, if_neg (by simp), if_pos h]
        rw [gc_countSame_eq coarser (pairsOf c)
          (fun pr hpr => hcov c (List.mem_cons_self c rest) pr.1 (pairsOf_mem c pr hpr).1)]
        rw [ihr]
        simp [communityScore]
      · have hskip : (c.isEmpty || c.length == 1) = true := by
          interval_cases hcl : c.length
          · simpa using List.isEmpty_iff_length_eq_zero.2 hcl
          · simp [hcl]
        rw [hskip, if_pos rfl, if_neg h, ihr]

/-- C5 (amended): whenever every lexeme of every finer community lies in some
coarser set — as holds for genuine partitions of a common lexeme set — the
standalone script and the modularized analyzer make the same sentinel
decision and produce the same per-community score sequence. -/
theorem standalone_modular_agreement (coarser finer : List (List String))
    (hcov : ∀ c ∈ finer, ∀ v ∈ c, (find_set_containing_string coarser v).isSome) :
    gc_pair coarser finer = Except.ok (calculate_hierarchy_coefficient coarser finer) := by
  unfold gc_pair calculate_hierarchy_coefficient
  by_cases h : finer.all (fun s => s.length == 1) = true
  · rw [if_pos h, if_pos h]
  · rw [if_neg h, if_neg h, gc_scores_eq coarser finer hcov]

/-- C5 counterexample: with the empty coarser partition and one two-member
finer community the modular analyzer returns the score list with entry 0,
while the standalone script fails on the missing set, so the two computations
do not agree on every pair of partitions. -/
theorem standalone_modular_divergence :
    gc_pair ([] : List (List String)) [["a", "b"]] = Except.error () ∧
    calculate_hierarchy_coefficient ([] : List (List String)) [["a", "b"]] = Sum.inr [0] := by
  constructor
  · rfl
  · have h1 : calculate_hierarchy_coefficient ([] : List (List String)) [["a", "b"]] =
        Sum.inr [communityScore [] ["a", "b"]] := by
      unfold calculate_hierarchy_coefficient
      rw [if_neg (by decide)]
      rfl
    rw [h1]
    have h2 : (pairsOf ["a", "b"]).countP (sameSetHit []) = 0 := by decide
    have h3 : (pairsOf ["a", "b"]).length = 1 := by decide
    unfold communityScore
    rw [h2, h3]
    norm_num

/-- C5 witness: on a concrete covered pair the two computations agree. -/
theorem standalone_modular_agreement_witness :
    gc_pair [["a", "b"]] [["a", "b"]] =
      Except.ok (calculate_hierarchy_coefficient [["a", "b"]] [["a", "b"]]) :=
  standalone_modular_agreement [["a", "b"]] [["a", "b"]] (by decide)

lemma pySplit_no_sep (sep : Char) (s : List Char) (h : sep ∉ s) : pySplit sep s = [s] := by
  induction s with
  | nil => rfl
  | cons c cs ih =>
      have hc : ¬ c = sep := fun hc => h (hc ▸ List.mem_cons_self c cs)
      rw [pySplit, if_neg hc, ih (fun hm => h (List.mem_cons_of_mem c hm))]

lemma pySplit_append (sep : Char) (a b : List Char) (h : sep ∉ a) :
    pySplit sep (a ++ sep :: b) = a :: pySplit sep b := by
  induction a with
  | nil => simp [pySplit]
  | cons c a ih =>
      have hc : ¬ c = sep := fun hc => h (hc ▸ List.mem_cons_self c a)
      rw [List.cons_append, pySplit, if_neg hc, ih (fun hm => h (List.mem_cons_of_mem c hm))]

lemma sep_append_inj (sep : Char) (a b c d : List Char)
    (ha : sep ∉ a) (hb : sep ∉ b) (hc : sep ∉ c) (hd : sep ∉ d)
    (h : a ++ sep :: b = c ++ sep :: d) : a = c ∧ b = d := by
  have h2 := congrArg (pySplit sep) h
  rw [pySplit_append sep a b ha, pySplit_append sep c d hc,
    pySplit_no_sep sep b hb, pySplit_no_sep sep d hd] at h2
  exact ⟨(List.cons_eq_cons.1 h2).1, by
    have := (List.cons_eq_cons.1 h2).2
    exact (List.cons_eq_cons.1 this).1⟩

lemma adjacentPairs_mem {α : Type} (l : List α) (p : α × α) (h : p ∈ adjacentPairs l) :
    p.1 ∈ l ∧ p.2 ∈ l := by
  induction l with
  | nil => simp [adjacentPairs] at h
  | cons a t ih =>
      cases t with
      | nil => simp [adjacentPairs] at h
      | cons b t2 =>
          have hshape : adjacentPairs (a :: b :: t2) = (a, b) :: adjacentPairs (b :: t2) := rfl
          rw [hshape, List.mem_cons] at h
          rcases h with h | h
          · subst h
            exact ⟨List.mem_cons_self _ _, List.mem_cons_of_mem _ (List.mem_cons_self _ _)⟩
          · obtain ⟨h1, h2⟩ := ih h
            exact ⟨List.mem_cons_of_mem _ h1, List.mem_cons_of_mem _ h2⟩

lemma adjacentPairs_nodup {α : Type} (l : List α) (h : l.Nodup) :
    (adjacentPairs l).Nodup := by
  induction l with
  | nil => simp [adjacentPairs]
  | cons a t ih =>
      cases t with
      | nil => simp [adjacentPairs]
      | cons b t2 =>
          have hshape : adjacentPairs (a :: b :: t2) = (a, b) :: adjacentPairs (b :: t2) := rfl
          rw [hshape]
          rw [List.nodup_cons] at h ⊢
          refine ⟨?_, ih h.2⟩
          intro hmem
          exact h.1 (adjacentPairs_mem (b :: t2) (a, b) hmem).1

lemma hierarchyRows_nil (comms : List Char → List (List String)) :
    hierarchyRows comms [] = [] := rfl

lemma hierarchyRows_single (comms : List Char → List (List String)) (r : List Char) :
    hierarchyRows comms [r] = [] := rfl

lemma hierarchyRows_cons (comms : List Char → List (List String)) (r1 r2 : List Char)
    (rest : List (List Char)) :
    hierarchyRows comms (r1 :: r2 :: rest) =
      (r1 ++ '_' :: r2,
        averageOf (calculate_hierarchy_coefficient (comms r1) (comms r2)),
        (comms r1).length, (comms r2).length) :: hierarchyRows comms (r2 :: rest) := rfl

lemma hierarchyRows_length (comms : List Char → List (List String))
    (res : List (List Char)) : (hierarchyRows comms res).length = res.length - 1 := by
  induction res with
  | nil => rfl
  | cons r1 t ih =>
      cases t with
      | nil => rfl
      | cons r2 rest =>
          rw [hierarchyRows_cons, List.length_cons, ih]
          simp

lemma hierarchyRows_keys (comms : List Char → List (List String))
    (res : List (List Char)) :
    (hierarchyRows comms res).map (fun row => row.1) =
      (adjacentPairs res).map (fun p => p.1 ++ '_' :: p.2) := by
  induction res with
  | nil => rfl
  | cons r1 t ih =>
      cases t with
      | nil => rfl
      | cons r2 rest =>
          rw [hierarchyRows_cons, List.map_cons, ih]
          rfl

lemma hierarchyRows_get (comms : List Char → List (List String))
    (res : List (List Char)) (i : Nat) (a b : List Char)
    (ha : res.get? i = some a) (hb : res.get? (i + 1) = some b) :
    (hierarchyRows comms res).get? i =
      some (a ++ '_' :: b,
        averageOf (calculate_hierarchy_coefficient (comms a) (comms b)),
        (comms a).length, (comms b).length) := by
  induction res generalizing i with
  | nil => simp at ha
  | cons r1 t ih =>
      cases t with
      | nil =>
          rw [List.get?_cons_succ] at hb
          simp at hb
      | cons r2 rest =>
          cases i with
          | zero =>
              rw [List.get?_cons_zero] at ha
              rw [List.get?_cons_succ, List.get?_cons_zero] at hb
              cases ha
              cases hb
              rw [hierarchyRows_cons, List.get?_cons_zero]
          | succ j =>
              rw [List.get?_cons_succ] at ha hb
              rw [hierarchyRows_cons, List.get?_cons_succ]
              exact ih j ha hb

/-- C9 (amended): the persisted hierarchy report has one row per adjacent
resolution pair, with distinct keys rendered lower then underscore then
upper, the average coefficient (sentinel passed through, mean otherwise, 0
for an empty score list) second, then the community count at the LOWER
resolution and the community count at the upper resolution, in that order —
the third column, labelled ncomms_upper in the source, carries the counts at
`resolutions[:-1]`, the lower resolution values. -/
theorem hierarchy_report_rows (comms : List Char → List (List String))
    (res : List (List Char)) (hnd : res.Nodup)
    (hus : ∀ r ∈ res, ('_' : Char) ∉ r) :
    (hierarchyRows comms res).length = res.length - 1 ∧
    ((hierarchyRows comms res).map (fun row => row.1)).Nodup ∧
    (∀ i a b, res.get? i = some a → res.get? (i + 1) = some b →
      (hierarchyRows comms res).get? i =
        some (a ++ '_' :: b,
          averageOf (calculate_hierarchy_coefficient (comms a) (comms b)),
          (comms a).length, (comms b).length)) := by
  refine ⟨hierarchyRows_length comms res, ?_, fun i a b ha hb =>
    hierarchyRows_get comms res i a b ha hb⟩
  rw [hierarchyRows_keys]
  apply List.Nodup.map_on
  · intro p hp q hq hkey
    obtain ⟨hp1, hp2⟩ := adjacentPairs_mem res p hp
    obtain ⟨hq1, hq2⟩ := adjacentPairs_mem res q hq
    obtain ⟨h1, h2⟩ := sep_append_inj '_' p.1 p.2 q.1 q.2
      (hus p.1 hp1) (hus p.2 hp2) (hus q.1 hq1) (hus q.2 hq2) hkey
    exact Prod.ext h1 h2
  · exact adjacentPairs_nodup res hnd

/-- C9 witness: the report row for the concrete two-resolution sweep. -/
theorem hierarchy_report_rows_witness :
    (hierarchyRows c9comms [['0'], ['1']]).get? 0 =
      some (['0'] ++ '_' :: ['1'],
        averageOf (calculate_hierarchy_coefficient (c9comms ['0']) (c9comms ['1'])),
        (c9comms ['0']).length, (c9comms ['1']).length) :=
  (hierarchy_report_rows c9comms [['0'], ['1']] (by decide) (by decide)).2.2
    0 ['0'] ['1'] rfl rfl

/-- C9 counterexample: at a sweep with 1 community at the lower resolution
and 2 at the upper one, the single report row carries the counts in the order
(1, 2) — lower first — whereas the claim's column order (count at upper, then
count at lower) would require (2, 1). -/
theorem hierarchy_report_cex :
    (hierarchyRows c9comms [['0'], ['1']]).map (fun row => (row.2.2.1, row.2.2.2)) =
      [(1, 2)] ∧
    (c9comms ['0']).length = 1 ∧ (c9comms ['1']).length = 2 ∧
    ¬ ([((1 : Nat), (2 : Nat))] = [(2, 1)]) := by
  exact ⟨rfl, rfl, rfl, by decide⟩

lemma lexemeProjection_mem (partition : List (Finset String)) (lexemes : Finset String)
    (t : Finset String) (ht : t ∈ lexemeProjection partition lexemes) :
    ∃ s ∈ partition, t = s ∩ lexemes ∧ t ≠ ∅ := by
  unfold lexemeProjection at ht
  rw [List.mem_map] at ht
  obtain ⟨s, hs, rfl⟩ := ht
  rw [List.mem_filter] at hs
  exact ⟨s, hs.1, rfl, by simpa using hs.2⟩

lemma lexemeProjection_pairwise (partition : List (Finset String)) (lexemes : Finset String)
    (hdisj : partition.Pairwise Disjoint) :
    (lexemeProjection partition lexemes).Pairwise Disjoint := by
  unfold lexemeProjection
  exact List.Pairwise.map (fun s => s ∩ lexemes)
    (fun a b (hab : Disjoint a b) =>
      hab.mono Finset.inter_subset_left Finset.inter_subset_left)
    (hdisj.sublist (List.filter_sublist partition))

lemma countP_disjoint_one (L : List (Finset String)) (x : String)
    (hdisj : L.Pairwise Disjoint) (hex : ∃ t ∈ L, x ∈ t) :
    L.countP (fun t => decide (x ∈ t)) = 1 := by
  induction L with
  | nil =>
      obtain ⟨t, ht, _⟩ := hex
      simp at ht
  | cons u rest ih =>
      rw [List.pairwise_cons] at hdisj
      rw [List.countP_cons]
      by_cases hxu : x ∈ u
      · have hz : rest.countP (fun t => decide (x ∈ t)) = 0 := by
          rw [List.countP_eq_zero]
          intro t ht
          simp only [decide_eq_true_eq]
          exact fun hxt => (Finset.disjoint_left.1 (hdisj.1 t ht)) hxu hxt
        rw [hz]
        simp [hxu]
      · obtain ⟨t, ht, hxt⟩ := hex
        rcases List.mem_cons.1 ht with rfl | ht2
        · exact absurd hxt hxu
        · rw [ih hdisj.2 ⟨t, ht2, hxt⟩]
          simp [hxu]

lemma foldr_union_subset (L : List (Finset String)) (X : Finset String)
    (h : ∀ t ∈ L, t ⊆ X) : L.foldr (fun a b => a ∪ b) ∅ ⊆ X := by
  induction L with
  | nil => simp
  | cons u rest ih =>
      rw [List.foldr_cons]
      exact Finset.union_subset (h u (List.mem_cons_self u rest))
        (ih (fun t ht => h t (List.mem_cons_of_mem u ht)))

lemma subset_foldr_union (L : List (Finset String)) (t : Finset String) (ht : t ∈ L) :
    t ⊆ L.foldr (fun a b => a ∪ b) ∅ := by
  induction L with
  | nil => simp at ht
  | cons u rest ih =>
      rw [List.foldr_cons]
      rcases List.mem_cons.1 ht with rfl | ht2
      · exact Finset.subset_union_left
      · exact (ih ht2).trans Finset.subset_union_right

/-- C8: assuming the clustering primitive returned pairwise disjoint sets,
every retained lexeme-only community is non-empty and the retained
communities are pairwise disjoint. -/
theorem partition_validity (partition : List (Finset String)) (lexemes : Finset String)
    (hdisj : partition.Pairwise Disjoint) :
    (∀ t ∈ lexemeProjection partition lexemes, t ≠ ∅) ∧
    (lexemeProjection partition lexemes).Pairwise Disjoint := by
  refine ⟨?_, lexemeProjection_pairwise partition lexemes hdisj⟩
  intro t ht
  exact (lexemeProjection_mem partition lexemes t ht).choose_spec.2.2

/-- C8 witness: a concrete two-set clustering over a two-lexeme node set. -/
theorem partition_validity_witness :
    (lexemeProjection [pA, pB] lexAB).Pairwise Disjoint :=
  (partition_validity [pA, pB] lexAB
    (List.pairwise_cons.2 ⟨fun t ht => by
        rw [List.mem_singleton] at ht
        subst ht
        exact Finset.disjoint_left.2 (by decide),
      List.pairwise_singleton _ _⟩)).2

/-- C10: assuming the clustering primitive returned a partition (pairwise
disjoint sets) covering every lexeme node, the union of the retained
lexeme-only communities is exactly the lexeme-node set and every lexeme node
lies in exactly one retained community: the projection drops no lexeme. -/
theorem lexeme_coverage (partition : List (Finset String)) (lexemes : Finset String)
    (hdisj : partition.Pairwise Disjoint)
    (hcov : ∀ x ∈ lexemes, ∃ s ∈ partition, x ∈ s) :
    ((lexemeProjection partition lexemes).foldr (fun a b => a ∪ b) ∅ = lexemes) ∧
    (∀ x ∈ lexemes,
      (lexemeProjection partition lexemes).countP (fun t => decide (x ∈ t)) = 1) := by
  have hmem : ∀ x ∈ lexemes, ∃ t ∈ lexemeProjection partition lexemes, x ∈ t := by
    intro x hx
    obtain ⟨s, hs, hxs⟩ := hcov x hx
    refine ⟨s ∩ lexemes, ?_, Finset.mem_inter.2 ⟨hxs, hx⟩⟩
    unfold lexemeProjection
    rw [List.mem_map]
    refine ⟨s, List.mem_filter.2 ⟨hs, ?_⟩, rfl⟩
    simp only [decide_eq_true_eq]
    exact Finset.nonempty_iff_ne_empty.1 ⟨x, Finset.mem_inter.2 ⟨hxs, hx⟩⟩
  constructor
  · apply Finset.Subset.antisymm
    · apply foldr_union_subset
      intro t ht
      obtain ⟨s, _, rfl, _⟩ := lexemeProjection_mem partition lexemes t ht
      exact Finset.inter_subset_right
    · intro x hx
      obtain ⟨t, ht, hxt⟩ := hmem x hx
      exact subset_foldr_union _ t ht hxt
  · intro x hx
    exact countP_disjoint_one _ x (lexemeProjection_pairwise partition lexemes hdisj)
      (hmem x hx)

/-- C10 witness: in the concrete projection each lexeme sits in exactly one
retained community and the union recovers the lexeme set. -/
theorem lexeme_coverage_witness :
    (lexemeProjection [pA, pB] lexAB).foldr (fun a b => a ∪ b) ∅ = lexAB :=
  (lexeme_coverage [pA, pB] lexAB
    (List.pairwise_cons.2 ⟨fun t ht => by
        rw [List.mem_singleton] at ht
        subst ht
        exact Finset.disjoint_left.2 (by decide),
      List.pairwise_singleton _ _⟩)
    (by decide)).1

lemma natCharsAux_eq_digits (fuel : Nat) : ∀ n : Nat, n ≤ fuel →
    natCharsAux fuel n = ((Nat.digits 10 n).map Nat.digitChar).reverse := by
  induction fuel with
  | zero =>
      intro n hn
      have : n = 0 := Nat.le_zero.1 hn
      subst this
      simp [natCharsAux]
  | succ fuel ih =>
      intro n hn
      by_cases h0 : n = 0
      · subst h0
        simp [natCharsAux]
      · rw [natCharsAux, if_neg h0]
        have hdiv : n / 10 ≤ fuel := by
          have := Nat.div_lt_self (Nat.pos_of_ne_zero h0) (by norm_num : 1 < 10)
          omega
        rw [ih (n / 10) hdiv,
          Nat.digits_def' (by norm_num : (1 : ℕ) < 10) (Nat.pos_of_ne_zero h0),
          List.map_cons, List.reverse_cons]

lemma natChars_eq_digits (n : Nat) :
    natChars n = if n = 0 then ['0'] else ((Nat.digits 10 n).map Nat.digitChar).reverse := by
  unfold natChars
  by_cases h0 : n = 0
  · rw [if_pos h0, if_pos h0]
  · rw [if_neg h0, if_neg h0, natCharsAux_eq_digits n n le_rfl]

lemma natChars_ne_nil (n : Nat) : natChars n ≠ [] := by
  rw [natChars_eq_digits]
  by_cases h0 : n = 0
  · rw [if_pos h0]
    simp
  · rw [if_neg h0]
    simp only [ne_eq, List.reverse_eq_nil_iff, List.map_eq_nil_iff]
    exact Nat.digits_ne_nil_iff_ne_zero.2 h0

lemma digitChar_isDigit : ∀ d : Nat, d < 10 → (Nat.digitChar d).isDigit = true := by decide

lemma natChars_isDigit (n : Nat) : ∀ c ∈ natChars n, c.isDigit = true := by
  rw [natChars_eq_digits]
  by_cases h0 : n = 0
  · rw [if_pos h0]
    intro c hc
    rw [List.mem_singleton] at hc
    subst hc
    decide
  · rw [if_neg h0]
    intro c hc
    rw [List.mem_reverse, List.mem_map] at hc
    obtain ⟨d, hd, rfl⟩ := hc
    exact digitChar_isDigit d (Nat.digits_lt_base (by norm_num) hd)

lemma isDigit_ne_underscore (c : Char) (h : c.isDigit = true) : c ≠ '_' := by
  intro hc
  subst hc
  exact absurd h (by decide)

lemma isDigit_ne_dash (c : Char) (h : c.isDigit = true) : c ≠ '-' := by
  intro hc
  subst hc
  exact absurd h (by decide)

lemma natChars_no_underscore (n : Nat) : ('_' : Char) ∉ natChars n := by
  intro hmem
  exact isDigit_ne_underscore '_' (natChars_isDigit n '_' hmem) rfl

lemma natChars_no_dash (n : Nat) : ('-' : Char) ∉ natChars n := by
  intro hmem
  exact isDigit_ne_dash '-' (natChars_isDigit n '-' hmem) rfl

lemma digitChar_inj : ∀ a : Nat, a < 10 → ∀ b : Nat, b < 10 →
    Nat.digitChar a = Nat.digitChar b → a = b := by decide

lemma map_digitChar_inj : ∀ l1 l2 : List Nat, (∀ d ∈ l1, d < 10) → (∀ d ∈ l2, d < 10) →
    l1.map Nat.digitChar = l2.map Nat.digitChar → l1 = l2 := by
  intro l1
  induction l1 with
  | nil =>
      intro l2 _ _ h
      cases l2 with
      | nil => rfl
      | cons b u => simp at h
  | cons a t ih =>
      intro l2 h1 h2 h
      cases l2 with
      | nil => simp at h
      | cons b u =>
          rw [List.map_cons, List.map_cons, List.cons_eq_cons] at h
          have hab : a = b :=
            digitChar_inj a (h1 a (List.mem_cons_self a t)) b (h2 b (List.mem_cons_self b u)) h.1
          rw [hab, ih u (fun d hd => h1 d (List.mem_cons_of_mem a hd))
            (fun d hd => h2 d (List.mem_cons_of_mem b hd)) h.2]

lemma natChars_inj (m n : Nat) (h : natChars m = natChars n) : m = n := by
  rw [natChars_eq_digits, natChars_eq_digits] at h
  by_cases hm : m = 0 <;> by_cases hn : n = 0
  · omega
  · exfalso
    rw [if_pos hm, if_neg hn] at h
    have h2 : (Nat.digits 10 n).map Nat.digitChar = ['0'] := by
      rw [← List.reverse_reverse ((Nat.digits 10 n).map Nat.digitChar), ← h]
      rfl
    cases hd : Nat.digits 10 n with
    | nil => rw [hd] at h2; simp at h2
    | cons d rest =>
        rw [hd, List.map_cons] at h2
        rw [List.cons_eq_cons] at h2
        have hrest : rest = [] := by
          have := h2.2
          simpa using this
        have hd10 : d < 10 :=
          Nat.digits_lt_base (by norm_num) (hd ▸ List.mem_cons_self d rest)
        have hd0 : d = 0 := digitChar_inj d hd10 0 (by norm_num) (by rw [h2.1]; rfl)
        have := Nat.ofDigits_digits 10 n
        rw [hd, hrest, hd0] at this
        simp [Nat.ofDigits] at this
        exact hn this.symm
  · exfalso
    rw [if_neg hm, if_pos hn] at h
    have h2 : (Nat.digits 10 m).map Nat.digitChar = ['0'] := by
      rw [← List.reverse_reverse ((Nat.digits 10 m).map Nat.digitChar), h]
      rfl
    cases hd : Nat.digits 10 m with
    | nil => rw [hd] at h2; simp at h2
    | cons d rest =>
        rw [hd, List.map_cons] at h2
        rw [List.cons_eq_cons] at h2
        have hrest : rest = [] := by
          have := h2.2
          simpa using this
        have hd10 : d < 10 :=
          Nat.digits_lt_base (by norm_num) (hd ▸ List.mem_cons_self d rest)
        have hd0 : d = 0 := digitChar_inj d hd10 0 (by norm_num) (by rw [h2.1]; rfl)
        have := Nat.ofDigits_digits 10 m
        rw [hd, hrest, hd0] at this
        simp [Nat.ofDigits] at this
        exact hm this.symm
  · rw [if_neg hm, if_neg hn] at h
    have h2 := List.reverse_injective h
    have h3 := map_digitChar_inj (Nat.digits 10 m) (Nat.digits 10 n)
      (fun d hd => Nat.digits_lt_base (by norm_num) hd)
      (fun d hd => Nat.digits_lt_base (by norm_num) hd) h2
    have hm2 := Nat.ofDigits_digits 10 m
    have hn2 := Nat.ofDigits_digits 10 n
    rw [← hm2, ← hn2, h3]

lemma takeWhile_append_of_all (p : Char → Bool) (a : List Char)
    (h : ∀ c ∈ a, p c = true) (u : Char) (hu : p u = false) (b : List Char) :
    (a ++ u :: b).takeWhile p = a := by
  induction a with
  | nil => simp [List.takeWhile_cons, hu]
  | cons c t ih =>
      have hc := h c (List.mem_cons_self c t)
      rw [List.cons_append, List.takeWhile_cons, hc,
        ih (fun d hd => h d (List.mem_cons_of_mem c hd))]
      simp

lemma dropWhile_append_of_all (p : Char → Bool) (a : List Char)
    (h : ∀ c ∈ a, p c = true) (u : Char) (hu : p u = false) (b : List Char) :
    (a ++ u :: b).dropWhile p = u :: b := by
  induction a with
  | nil => simp [List.dropWhile_cons, hu]
  | cons c t ih =>
      have hc := h c (List.mem_cons_self c t)
      rw [List.cons_append, List.dropWhile_cons, hc,
        ih (fun d hd => h d (List.mem_cons_of_mem c hd))]
      simp

lemma stripOrdinal_append_suffix (x : List Char) (k : Nat) :
    stripOrdinal (x ++ '_' :: natChars k) = x := by
  unfold stripOrdinal
  have hrev : (x ++ '_' :: natChars k).reverse =
      (natChars k).reverse ++ '_' :: x.reverse := by
    rw [List.reverse_append, List.reverse_cons, List.append_assoc, List.singleton_append]
  have hall : ∀ c ∈ (natChars k).reverse, c.isDigit = true := by
    intro c hc
    rw [List.mem_reverse] at hc
    exact natChars_isDigit k c hc
  have hu : ('_').isDigit = false := by decide
  rw [hrev, dropWhile_append_of_all _ _ hall '_' hu, takeWhile_append_of_all _ _ hall '_' hu]
  rw [if_pos ⟨by simpa using natChars_ne_nil k, rfl⟩]
  rw [List.tail_cons, List.reverse_reverse]

lemma indexLoop_length (l : List (List Char)) : ∀ prev : List (List Char),
    (indexLoop prev l).length = l.length := by
  induction l with
  | nil => intro prev; rfl
  | cons exp rest ih =>
      intro prev
      rw [indexLoop, List.length_cons, List.length_cons, ih (prev ++ [exp])]

lemma indexLoop_get (l : List (List Char)) : ∀ (prev : List (List Char)) (i : Nat)
    (h : i < l.length),
    (indexLoop prev l).get? i = some (
      if 1 < (prev ++ l.take (i + 1)).count (l.get ⟨i, h⟩) then
        l.get ⟨i, h⟩ ++ '_' :: natChars ((prev ++ l.take (i + 1)).count (l.get ⟨i, h⟩) - 1)
      else l.get ⟨i, h⟩) := by
  induction l with
  | nil => intro prev i h; simp at h
  | cons exp rest ih =>
      intro prev i h
      cases i with
      | zero =>
          rw [indexLoop, List.get?_cons_zero]
          have hc : (prev ++ (exp :: rest).take 1).count exp = prev.count exp + 1 := by
            rw [List.take_succ_cons, List.take_zero, List.count_append]
            simp
          have hget : (exp :: rest).get ⟨0, h⟩ = exp := rfl
          rw [hget, hc]
      | succ j =>
          have hj : j < rest.length := by simpa using h
          rw [indexLoop, List.get?_cons_succ, ih (prev ++ [exp]) j hj]
          have hget : (exp :: rest).get ⟨j + 1, h⟩ = rest.get ⟨j, hj⟩ := rfl
          have hcount : ((prev ++ [exp]) ++ rest.take (j + 1)).count (rest.get ⟨j, hj⟩) =
              (prev ++ (exp :: rest).take (j + 2)).count (rest.get ⟨j, hj⟩) := by
            rw [List.append_assoc, List.singleton_append, List.take_succ_cons]
          rw [hget, hcount]

lemma indexLoop_mem (l : List (List Char)) : ∀ (prev : List (List Char)) (y : List Char),
    y ∈ indexLoop prev l →
    ∃ x ∈ l, y = x ∨ ∃ k, 1 ≤ k ∧ y = x ++ '_' :: natChars k := by
  induction l with
  | nil => intro prev y hy; simp [indexLoop] at hy
  | cons exp rest ih =>
      intro prev y hy
      rw [indexLoop, List.mem_cons] at hy
      rcases hy with rfl | hy
      · refine ⟨exp, List.mem_cons_self _ _, ?_⟩
        by_cases hk : 1 < prev.count exp + 1
        · rw [if_pos hk]
          exact Or.inr ⟨prev.count exp + 1 - 1, by omega, rfl⟩
        · rw [if_neg hk]
          exact Or.inl rfl
      · obtain ⟨x, hx, hc⟩ := ih (prev ++ [exp]) y hy
        exact ⟨x, List.mem_cons_of_mem _ hx, hc⟩

lemma get_mem_take (l : List (List Char)) (i : Nat) (h : i < l.length) :
    l.get ⟨i, h⟩ ∈ l.take (i + 1) := by
  apply List.get?_mem
  show (l.take (i + 1)).get? i = some (l.get ⟨i, h⟩)
  rw [List.get?_eq_getElem?, List.getElem?_take, if_pos (by omega : i < i + 1),
    List.getElem?_eq_getElem h, List.get_eq_getElem]

lemma count_take_pos (l : List (List Char)) (i : Nat) (h : i < l.length) :
    0 < (l.take (i + 1)).count (l.get ⟨i, h⟩) :=
  List.count_pos_iff.2 (get_mem_take l i h)

lemma count_take_lt (l : List (List Char)) (i j : Nat) (hij : i < j) (hj : j < l.length)
    (heq : l.get ⟨i, lt_trans hij hj⟩ = l.get ⟨j, hj⟩) :
    (l.take (i + 1)).count (l.get ⟨j, hj⟩) < (l.take (j + 1)).count (l.get ⟨j, hj⟩) := by
  have hsplit : l.take (j + 1) = l.take (i + 1) ++ (l.take (j + 1)).drop (i + 1) := by
    conv_lhs => rw [← List.take_append_drop (i + 1) (l.take (j + 1))]
    rw [List.take_take, min_eq_left (by omega : i + 1 ≤ j + 1)]
  have hmem : l.get ⟨j, hj⟩ ∈ (l.take (j + 1)).drop (i + 1) := by
    apply List.get?_mem
    show ((l.take (j + 1)).drop (i + 1)).get? (j - (i + 1)) = some (l.get ⟨j, hj⟩)
    have hidx : i + 1 + (j - (i + 1)) = j := by omega
    rw [List.get?_eq_getElem?, List.getElem?_drop, hidx, List.getElem?_take,
      if_pos (by omega : j < j + 1), List.getElem?_eq_getElem hj, List.get_eq_getElem]
  have hpos : 0 < ((l.take (j + 1)).drop (i + 1)).count (l.get ⟨j, hj⟩) :=
    List.count_pos_iff.2 hmem
  calc (l.take (i + 1)).count (l.get ⟨j, hj⟩)
      < (l.take (i + 1)).count (l.get ⟨j, hj⟩) +
        ((l.take (j + 1)).drop (i + 1)).count (l.get ⟨j, hj⟩) := by omega
    _ = (l.take (j + 1)).count (l.get ⟨j, hj⟩) := by
        conv_rhs => rw [hsplit]
        rw [List.count_append]

lemma strip_enc (x : List Char) (k : Nat) (hx : stripOrdinal x = x) :
    stripOrdinal (if 1 < k then x ++ '_' :: natChars (k - 1) else x) = x := by
  by_cases hk : 1 < k
  · rw [if_pos hk, stripOrdinal_append_suffix]
  · rw [if_neg hk, hx]

lemma enc_inj_ne (x : List Char) (k1 k2 : Nat) (h1 : 0 < k1) (hlt : k1 < k2) :
    (if 1 < k1 then x ++ '_' :: natChars (k1 - 1) else x) ≠
      (if 1 < k2 then x ++ '_' :: natChars (k2 - 1) else x) := by
  have h2 : 1 < k2 := by omega
  rw [if_pos h2]
  by_cases hk1 : 1 < k1
  · rw [if_pos hk1]
    intro hc
    have hcc := List.append_cancel_left hc
    rw [List.cons_eq_cons] at hcc
    have := natChars_inj _ _ hcc.2
    omega
  · rw [if_neg hk1]
    intro hc
    have := congrArg List.length hc
    rw [List.length_append, List.length_cons] at this
    omega

lemma index_get_shape (l : List (List Char)) (i : Nat) (hi : i < l.length) :
    (index_duplicate_exponents l).get? i = some (
      if 1 < (l.take (i + 1)).count (l.get ⟨i, hi⟩) then
        l.get ⟨i, hi⟩ ++ '_' :: natChars ((l.take (i + 1)).count (l.get ⟨i, hi⟩) - 1)
      else l.get ⟨i, hi⟩) := by
  have := indexLoop_get l [] i hi
  rwa [List.nil_append] at this

lemma index_get_ne (l : List (List Char)) (h : ∀ x ∈ l, stripOrdinal x = x)
    (i j : Nat) (hij : i < j) (hj : j < l.length) :
    (index_duplicate_exponents l).get? i ≠ (index_duplicate_exponents l).get? j := by
  have hi : i < l.length := lt_trans hij hj
  rw [index_get_shape l i hi, index_get_shape l j hj]
  intro hc
  rw [Option.some_inj] at hc
  by_cases hxy : l.get ⟨i, hi⟩ = l.get ⟨j, hj⟩
  · have hpos := count_take_pos l i hi
    have hlt := count_take_lt l i j hij hj hxy
    rw [hxy] at hc hpos
    exact enc_inj_ne (l.get ⟨j, hj⟩) _ _ hpos hlt hc
  · have hsi : stripOrdinal (if 1 < (l.take (i + 1)).count (l.get ⟨i, hi⟩) then
        l.get ⟨i, hi⟩ ++ '_' :: natChars ((l.take (i + 1)).count (l.get ⟨i, hi⟩) - 1)
      else l.get ⟨i, hi⟩) = l.get ⟨i, hi⟩ :=
      strip_enc _ _ (h _ (List.get_mem l i hi))
    have hsj : stripOrdinal (if 1 < (l.take (j + 1)).count (l.get ⟨j, hj⟩) then
        l.get ⟨j, hj⟩ ++ '_' :: natChars ((l.take (j + 1)).count (l.get ⟨j, hj⟩) - 1)
      else l.get ⟨j, hj⟩) = l.get ⟨j, hj⟩ :=
      strip_enc _ _ (h _ (List.get_mem l j hj))
    exact hxy (by rw [← hsi, ← hsj, hc])

/-- C7 (amended): for a lexeme none of whose original tags already ends in an
underscore followed by a digit run (equivalently, each tag is unchanged by
ordinal stripping), the indexed tag sequence has no duplicates, and stripping
the ordinal suffix from every entry recovers exactly the original tag
sequence — in particular the original multiset of tags. -/
theorem index_duplicates_unique (l : List (List Char))
    (h : ∀ x ∈ l, stripOrdinal x = x) :
    (index_duplicate_exponents l).Nodup ∧
    (index_duplicate_exponents l).map stripOrdinal = l := by
  have hlen : (index_duplicate_exponents l).length = l.length := indexLoop_length l []
  constructor
  · rw [List.nodup_iff_get?_ne_get?]
    intro i j hij hj
    exact index_get_ne l h i j hij (by omega)
  · apply List.ext_get?
    intro n
    rw [List.get?_map]
    by_cases hn : n < l.length
    · rw [index_get_shape l n hn, List.get?_eq_get hn]
      show some (stripOrdinal _) = _
      rw [strip_enc _ _ (h _ (List.get_mem l n hn))]
    · have h1 : (index_duplicate_exponents l).get? n = none :=
        List.get?_eq_none.2 (by omega)
      have h2 : l.get? n = none := List.get?_eq_none.2 (by omega)
      rw [h1, h2]
      rfl

/-- C7 counterexample: the pipeline-reachable tag sequence of a lexeme with
columns C (exponent list a, a) and C underscore 1 (exponent list a) is three
tags whose indexed forms collide, so the indexed sequence has a duplicate. -/
theorem index_duplicates_collision :
    rowTags [(['C'], some [['a'], ['a']]), (['C', '_', '1'], some [['a']])] =
      [['#', 'a', '#', '-', 'C'], ['#', 'a', '#', '-', 'C'],
        ['#', 'a', '#', '-', 'C', '_', '1']] ∧
    ¬ (index_duplicate_exponents
        [['#', 'a', '#', '-', 'C'], ['#', 'a', '#', '-', 'C'],
          ['#', 'a', '#', '-', 'C', '_', '1']]).Nodup := by
  constructor
  · rfl
  · decide

/-- C7 witness: a concrete suffix-free tag list is indexed without duplicates
and stripping recovers it. -/
theorem index_duplicates_unique_witness :
    (index_duplicate_exponents
      [['#', 'a', '#', '-', 'C'], ['#', 'a', '#', '-', 'C']]).map stripOrdinal =
      [['#', 'a', '#', '-', 'C'], ['#', 'a', '#', '-', 'C']] :=
  (index_duplicates_unique [['#', 'a', '#', '-', 'C'], ['#', 'a', '#', '-', 'C']]
    (by decide)).2

/-- C4: evaluation of the edge-weight pipeline at the failing input `tblNaN`.
The lookup for lexeme L2 with recovered cell C meets the NaN pivot entry
(column C is valid thanks to L1 but not applicable for L2), and instead of
aborting with a diagnostic the build returns the edge list with the
non-finite weight NaN in it. -/
theorem nan_weight_propagated :
    buildEdges tblNaN =
      Except.ok [("L1", ['#', 'a', '#', '-', 'C'], PyFloat.fin (1 / 1)),
        ("L2", ['#', 'b', '#', '-', 'C', '_', '1'], PyFloat.nan)] := by
  rfl

/-- C2 counterexample: for the table whose single cell holds the exponent
list (a, a) — two entries, one distinct exponent — both emitted edges carry
weight one half, the reciprocal of the list length with multiplicity, while
the claimed reciprocal of the number of distinct exponents would be one. -/
theorem edge_weight_multiplicity_cex :
    buildEdges tblDup =
      Except.ok [("L", ['#', 'a', '#', '-', 'C'], PyFloat.fin (1 / 2)),
        ("L", ['#', 'a', '#', '-', 'C', '_', '1'], PyFloat.fin (1 / 2))] ∧
    ([['a'], ['a']] : List (List Char)).dedup.length = 1 ∧
    PyFloat.fin (1 / 2) ≠ PyFloat.fin (1 / ((1 : Nat) : ℚ)) := by
  refine ⟨by rfl, by rfl, ?_⟩
  intro hcontra
  rw [PyFloat.fin.injEq] at hcontra
  norm_num at hcontra

lemma generate_triphones_chars (e : List Char) :
    ∀ t ∈ generate_triphones e, ∀ c ∈ t, c = '#' ∨ c ∈ e := by
  intro t ht c hc
  have hsub : c ∈ ('#' :: e ++ ['#']) := by
    by_cases hl : ('#' :: e ++ ['#']).length ≤ 3
    · rw [generate_triphones_of_le e hl] at ht
      rw [List.mem_singleton] at ht
      subst ht
      exact hc
    · rw [generate_triphones_of_gt e hl] at ht
      rw [List.mem_map] at ht
      obtain ⟨i, _, rfl⟩ := ht
      exact List.drop_subset i _ (List.take_subset 3 _ hc)
  rcases List.mem_cons.1 hsub with h1 | h2
  · exact Or.inl h1
  · rcases List.mem_append.1 h2 with h3 | h4
    · exact Or.inr h3
    · rw [List.mem_singleton] at h4
      exact Or.inl h4

lemma cellTags_some (c : List Char) (v : Option (List (List Char)))
    (es : List (List Char)) (hv : v = some es) :
    cellTags (c, v) = process_cell (es.flatMap generate_triphones) c := by
  subst hv
  rfl

lemma rowTags_mem (row : TableRow) (x : List Char) (hx : x ∈ rowTags row) :
    ∃ p ∈ dropStem row, ∃ es, p.2 = some es ∧ ∃ e ∈ es, ∃ trip ∈ generate_triphones e,
      x = trip ++ '-' :: p.1 := by
  unfold rowTags at hx
  rw [List.mem_flatMap] at hx
  obtain ⟨p, hp, hx2⟩ := hx
  cases hv : p.2 with
  | none =>
      exfalso
      have hcp : cellTags p = [] := by
        obtain ⟨c, v⟩ := p
        simp only at hv
        rw [hv]
        rfl
      rw [hcp] at hx2
      simp at hx2
  | some es =>
      have hcp : cellTags p = process_cell (es.flatMap generate_triphones) p.1 := by
        obtain ⟨c, v⟩ := p
        simp only at hv
        rw [hv]
        rfl
      rw [hcp] at hx2
      unfold process_cell at hx2
      rw [List.mem_map] at hx2
      obtain ⟨trip, htrip, rfl⟩ := hx2
      rw [List.mem_flatMap] at htrip
      obtain ⟨e, he, htrip2⟩ := htrip
      exact ⟨p, hp, es, hv, e, he, trip, htrip2, rfl⟩

lemma find_key_eq {κ α : Type} [DecidableEq κ] (l : List (κ × α))
    (hnd : (l.map Prod.fst).Nodup) (p : κ × α) (hp : p ∈ l) :
    l.find? (fun q => decide (q.1 = p.1)) = some p := by
  induction l with
  | nil => simp at hp
  | cons q rest ih =>
      rw [List.map_cons, List.nodup_cons] at hnd
      rcases List.mem_cons.1 hp with rfl | hp2
      · rw [List.find?_cons_of_pos _ (by simp)]
      · have hne : ¬ (q.1 = p.1) := by
          intro hc
          exact hnd.1 (hc ▸ (List.mem_map.2 ⟨p, hp2, rfl⟩))
        rw [List.find?_cons_of_neg _ (by simpa using hne)]
        exact ih hnd.2 hp2

lemma rowValue_some (row : TableRow) (hnd : (row.map Prod.fst).Nodup)
    (p : List Char × Option (List (List Char))) (hp : p ∈ row)
    (es : List (List Char)) (hes : p.2 = some es) :
    rowValue row p.1 = some (some es) := by
  unfold rowValue
  rw [find_key_eq row hnd p hp, Option.map_some', hes]

lemma dropStem_subset (row : TableRow) : ∀ p ∈ dropStem row, p ∈ row := by
  intro p hp
  exact List.mem_of_mem_filter hp

lemma dropStem_keys_nodup (row : TableRow) (hnd : (row.map Prod.fst).Nodup) :
    ((dropStem row).map Prod.fst).Nodup :=
  hnd.sublist ((List.filter_sublist row).map Prod.fst)

lemma weightLookup_some (t : FormTable) (hkeys : (t.map Prod.fst).Nodup)
    (r : String × TableRow) (hr : r ∈ t)
    (hrcols : ((dropStem r.2).map Prod.fst).Nodup)
    (p : List Char × Option (List (List Char))) (hp : p ∈ dropStem r.2)
    (es : List (List Char)) (hes : p.2 = some es) (hne : es ≠ []) :
    weightLookup t r.1 p.1 = Except.ok (PyFloat.fin (1 / (es.length : ℚ))) := by
  unfold weightLookup
  rw [find_key_eq t hkeys r hr, Option.map_some', Option.getD_some]
  have hnotall : ¬ ((dropStem r.2).all (fun q => q.2.isNone) = true) := by
    intro hc
    rw [List.all_eq_true] at hc
    have := hc p hp
    rw [hes] at this
    simp at this
  rw [if_neg hnotall]
  have hcol : isListCol t p.1 = true := by
    unfold isListCol
    rw [List.any_eq_true]
    refine ⟨r, hr, ?_⟩
    rw [List.any_eq_true]
    refine ⟨p, hp, ?_⟩
    rw [hes]
    simp
  rw [if_pos hcol, rowValue_some (dropStem r.2) hrcols p hp es hes]
  have hred : ((some (some es) : Option (Option (List (List Char)))).join).elim
      (Except.ok PyFloat.nan)
      (fun exps => if exps.length = 0 then Except.error (r.1, p.1)
        else Except.ok (PyFloat.fin (1 / (exps.length : ℚ)))) =
      (if es.length = 0 then Except.error (r.1, p.1)
        else Except.ok (PyFloat.fin (1 / (es.length : ℚ)))) := rfl
  rw [hred, if_neg (fun hc => hne (List.length_eq_zero.1 hc))]

lemma originCount_some (t : FormTable) (hkeys : (t.map Prod.fst).Nodup)
    (r : String × TableRow) (hr : r ∈ t)
    (hrcols : ((dropStem r.2).map Prod.fst).Nodup)
    (p : List Char × Option (List (List Char))) (hp : p ∈ dropStem r.2)
    (es : List (List Char)) (hes : p.2 = some es) :
    originCount t r.1 p.1 = some es.length := by
  unfold originCount
  rw [find_key_eq t hkeys r hr, Option.map_some',
    rowValue_some (dropStem r.2) hrcols p hp es hes]
  rfl

lemma edgeCell_bare (trip cell : List Char) (htrip : ('-' : Char) ∉ trip)
    (hcell : ('-' : Char) ∉ cell) (hcu : ('_' : Char) ∉ cell) :
    edgeCell (trip ++ '-' :: cell) = some cell := by
  unfold edgeCell
  rw [pySplit_append '-' trip cell htrip, pySplit_no_sep '-' cell hcell]
  simp only [List.get?_cons_succ, List.get?_cons_zero, Option.map_some']
  rw [if_neg hcu]

lemma edgeCell_suffixed (trip cell : List Char) (k : Nat) (htrip : ('-' : Char) ∉ trip)
    (hcell : ('-' : Char) ∉ cell) (hcu : ('_' : Char) ∉ cell) :
    edgeCell (trip ++ '-' :: (cell ++ '_' :: natChars k)) = some cell := by
  unfold edgeCell
  have hmid : ('-' : Char) ∉ cell ++ '_' :: natChars k := by
    intro hm
    rcases List.mem_append.1 hm with h1 | h2
    · exact hcell h1
    · rcases List.mem_cons.1 h2 with h3 | h4
      · exact absurd h3 (by decide)
      · exact natChars_no_dash k h4
  rw [pySplit_append '-' trip _ htrip, pySplit_no_sep '-' _ hmid]
  simp only [List.get?_cons_succ, List.get?_cons_zero, Option.map_some']
  rw [if_pos (List.mem_append.2 (Or.inr (List.mem_cons_self _ _))),
    pySplit_append '_' cell (natChars k) hcu]
  rfl

lemma mapE_ok {α β ε : Type} (f : α → Except ε β) (l : List α)
    (h : ∀ a ∈ l, ∃ b, f a = Except.ok b) :
    ∃ bs, mapE f l = Except.ok bs ∧ ∀ b ∈ bs, ∃ a ∈ l, f a = Except.ok b := by
  induction l with
  | nil => exact ⟨[], rfl, by simp⟩
  | cons a t ih =>
      obtain ⟨b, hb⟩ := h a (List.mem_cons_self a t)
      obtain ⟨bs, hbs, hmem⟩ := ih (fun x hx => h x (List.mem_cons_of_mem a hx))
      refine ⟨b :: bs, ?_, ?_⟩
      · rw [mapE, hb, hbs]
      · intro c hc
        rcases List.mem_cons.1 hc with rfl | hc2
        · exact ⟨a, List.mem_cons_self a t, hb⟩
        · obtain ⟨x, hx, hfx⟩ := hmem c hc2
          exact ⟨x, List.mem_cons_of_mem a hx, hfx⟩

lemma edge_trace (t : FormTable) (lex : String) (y : List Char)
    (hmem : (lex, y) ∈ dictToEdges (index_duplicate_exponents_dict (build_lexeme_dict t))) :
    ∃ r ∈ t, lex = r.1 ∧ y ∈ index_duplicate_exponents (rowTags r.2) := by
  unfold dictToEdges at hmem
  rw [List.mem_flatMap] at hmem
  obtain ⟨q, hq, hy⟩ := hmem
  rw [List.mem_map] at hy
  obtain ⟨e0, he0, heq⟩ := hy
  unfold index_duplicate_exponents_dict at hq
  rw [List.mem_map] at hq
  obtain ⟨d, hd, rfl⟩ := hq
  unfold build_lexeme_dict at hd
  rw [List.mem_map] at hd
  obtain ⟨r, hr, rfl⟩ := hd
  have h1 : lex = r.1 := by
    have := congrArg Prod.fst heq
    simpa using this.symm
  have h2 : y = e0 := by
    have := congrArg Prod.snd heq
    simpa using this.symm
  exact ⟨r, hr, h1, h2 ▸ he0⟩

lemma edgeWeight_traced (t : FormTable)
    (hkeys : (t.map Prod.fst).Nodup)
    (hcols : ∀ r ∈ t, (r.2.map Prod.fst).Nodup)
    (hcell : ∀ r ∈ t, ∀ p ∈ r.2, ('-' : Char) ∉ p.1 ∧ ('_' : Char) ∉ p.1)
    (hexp : ∀ r ∈ t, ∀ p ∈ r.2, ∀ es, p.2 = some es → ∀ e ∈ es, ('-' : Char) ∉ e)
    (lex : String) (y : List Char)
    (hmem : (lex, y) ∈ dictToEdges (index_duplicate_exponents_dict (build_lexeme_dict t))) :
    ∃ n : Nat, 0 < n ∧ ∃ cell, edgeCell y = some cell ∧
      originCount t lex cell = some n ∧
      edgeWeight t lex y = Except.ok (PyFloat.fin (1 / (n : ℚ))) := by
  obtain ⟨r, hr, rfl, hy⟩ := edge_trace t lex y hmem
  obtain ⟨x, hx, hform⟩ := indexLoop_mem (rowTags r.2) [] y hy
  obtain ⟨p, hp, es, hes, e, he, trip, htrip, rfl⟩ := rowTags_mem r.2 x hx
  have hpr : p ∈ r.2 := dropStem_subset r.2 p hp
  have hcells := hcell r hr p hpr
  have htripd : ('-' : Char) ∉ trip := by
    intro hm
    rcases generate_triphones_chars e trip htrip '-' hm with h1 | h2
    · exact absurd h1 (by decide)
    · exact hexp r hr p hpr es hes e he h2
  have hrcols : ((dropStem r.2).map Prod.fst).Nodup :=
    dropStem_keys_nodup r.2 (hcols r hr)
  have hesne : es ≠ [] := fun hc => by
    rw [hc] at he
    simp at he
  have hcellEq : edgeCell y = some p.1 := by
    rcases hform with rfl | ⟨k, _, rfl⟩
    · exact edgeCell_bare trip p.1 htripd hcells.1 hcells.2
    · rw [List.append_assoc, List.cons_append]
      exact edgeCell_suffixed trip p.1 k htripd hcells.1 hcells.2
  refine ⟨es.length, List.length_pos.2 hesne, p.1, hcellEq, ?_, ?_⟩
  · exact originCount_some t hkeys r hr hrcols p hp es hes
  · unfold edgeWeight
    rw [hcellEq]
    show weightLookup t r.1 p.1 = _
    exact weightLookup_some t hkeys r hr hrcols p hp es hes hesne

/-- C2 (amended): for a table whose cell labels contain neither a dash nor an
underscore and whose exponents contain no dash — so that stripping the
ordinal suffix and the triphone tag recovers the originating cell exactly —
the edge-weight computation succeeds, and every emitted edge carries weight 1
divided by the number of exponent entries (counted with multiplicity, not
distinct exponents) attached to that lexeme for the recovered originating
cell; every such weight is a strictly positive rational at most 1. -/
theorem edge_weight_spec (t : FormTable)
    (hkeys : (t.map Prod.fst).Nodup)
    (hcols : ∀ r ∈ t, (r.2.map Prod.fst).Nodup)
    (hcell : ∀ r ∈ t, ∀ p ∈ r.2, ('-' : Char) ∉ p.1 ∧ ('_' : Char) ∉ p.1)
    (hexp : ∀ r ∈ t, ∀ p ∈ r.2, ∀ es, p.2 = some es → ∀ e ∈ es, ('-' : Char) ∉ e) :
    ∃ edges, buildEdges t = Except.ok edges ∧
      ∀ ed ∈ edges, ∃ n : Nat, 0 < n ∧
        ed.2.2 = PyFloat.fin (1 / (n : ℚ)) ∧
        0 < (1 : ℚ) / (n : ℚ) ∧ (1 : ℚ) / (n : ℚ) ≤ 1 ∧
        ∃ cell, edgeCell ed.2.1 = some cell ∧ originCount t ed.1 cell = some n := by
  unfold buildEdges calculate_edge_weights
  obtain ⟨edges, hedges, htrace⟩ := mapE_ok
    (fun pe => Except.map (fun w => (pe.1, pe.2, w)) (edgeWeight t pe.1 pe.2))
    (dictToEdges (index_duplicate_exponents_dict (build_lexeme_dict t)))
    (by
      intro a ha
      obtain ⟨n, _, cell, _, _, hw⟩ :=
        edgeWeight_traced t hkeys hcols hcell hexp a.1 a.2 (by simpa using ha)
      refine ⟨(a.1, a.2, PyFloat.fin (1 / (n : ℚ))), ?_⟩
      show Except.map (fun w => (a.1, a.2, w)) (edgeWeight t a.1 a.2) = _
      rw [hw]
      rfl)
  refine ⟨edges, hedges, ?_⟩
  intro ed hed
  obtain ⟨a, ha, hfa⟩ := htrace ed hed
  obtain ⟨n, hn, cell, hcell2, horigin, hw⟩ :=
    edgeWeight_traced t hkeys hcols hcell hexp a.1 a.2 (by simpa using ha)
  rw [hw] at hfa
  have hed2 : ed = (a.1, a.2, PyFloat.fin (1 / (n : ℚ))) := by
    have : Except.ok (ε := String × List Char) (a.1, a.2, PyFloat.fin (1 / (n : ℚ))) =
        Except.ok ed := hfa
    exact (Except.ok.injEq _ _ ▸ congrArg (fun x => x) this) ▸ rfl
  refine ⟨n, hn, ?_, ?_, ?_, cell, ?_, ?_⟩
  · rw [hed2]
  · positivity
  · rw [div_le_one (by exact_mod_cast hn)]
    exact_mod_cast hn
  · rw [hed2]
    exact hcell2
  · rw [hed2]
    exact horigin

/-- C2 witness: a concrete one-lexeme table with a two-exponent cell. -/
theorem edge_weight_spec_witness :
    ∃ edges, buildEdges [("L", [(['C'], some [['a'], ['b']])])] = Except.ok edges ∧
      ∀ ed ∈ edges, ∃ n : Nat, 0 < n ∧
        ed.2.2 = PyFloat.fin (1 / (n : ℚ)) ∧
        0 < (1 : ℚ) / (n : ℚ) ∧ (1 : ℚ) / (n : ℚ) ≤ 1 ∧
        ∃ cell, edgeCell ed.2.1 = some cell ∧
          originCount [("L", [(['C'], some [['a'], ['b']])])] ed.1 cell = some n :=
  edge_weight_spec [("L", [(['C'], some [['a'], ['b']])])]
    (by decide) (by decide) (by decide) (by decide)

end InflHierarchy
